import Mathlib

/-!
Verification of the release-tracking core of `libgit2-experiments`.

The definitions below are a shallow embedding of `src/track-release.c` and
`src/utils.c`:

* the character classes mirror the C-locale `isdigit` / `isalnum` tests used
  by the matchers (tag and branch names are byte strings; for bytes outside
  ASCII both the C locale and these functions answer `false`);
* `stripTagName`, `versionBodyOk` and `tagCallbackMatch` embed the tag-name
  parsing inlined in `tag_callback` (track-release.c:301-372);
  `check_release_tag` embeds the standalone matcher in utils.c:219-278, which
  additionally bounds the version at 32 characters;
* `branchNameOk` embeds the branch-name loop of `branch_callback`
  (track-release.c:388-396) and `check_release_branch` the utils.c:283-300
  variant with its extra length bound;
* the SQLite `releases` table is modelled as a `List Row`; `release_exists`
  and `add_release` embed the functions of the same names
  (track-release.c:218-270), with the SQL `SELECT`/`DELETE`/`INSERT`
  statements replaced by list filtering and appending, and the fresh `added`
  wall-clock timestamp passed in as an explicit `now` argument;
* `git_gmtime`, `epochToTm` and the `fmt*` functions embed `git_gmtime`
  (track-release.c:171-188) composed with `gmtime_r` and the two `strftime`
  format strings used by `add_release` and `add_release_tip`;
* `add_release_tip`, `processCommitTags`, `branch_callback` and
  `trackBranches` embed the per-branch orchestration
  (track-release.c:273-299, 301-372, 374-440, 540-544), with the libgit2
  iterators replaced by explicit lists (tags of the repository, the
  topological ancestry of a branch tip) and commit lookups assumed to
  succeed.
-/

namespace TrackRelease

/-- C-locale `isdigit` restricted to the ASCII bytes that occur in git
reference names. -/
def isdigit (c : Char) : Bool :=
  '0' ≤ c && c ≤ '9'

/-- C-locale alphabetic test. -/
def isalphaChar (c : Char) : Bool :=
  ('A' ≤ c && c ≤ 'Z') || ('a' ≤ c && c ≤ 'z')

/-- C-locale `isalnum`. -/
def isalnum (c : Char) : Bool :=
  isalphaChar c || isdigit c

/-- Characters permitted after the `digit* '.' digit` head of a version tag
(track-release.c:358, utils.c:268). -/
def isTagChar (c : Char) : Bool :=
  isalnum c || c == '-' || c == '_' || c == '.' || c == '~' || c == '@'

/-- Characters permitted in a release-tracked branch name
(track-release.c:391, utils.c:290). -/
def isBranchChar (c : Char) : Bool :=
  isalnum c || c == '-' || c == '_'

/-- Embeds the prefix-stripping performed at the start of `tag_callback`
(track-release.c:317-332) and `check_release_tag` (utils.c:224-239): drop a
`refs/tags/` namespace, then a single leading `v`/`r` (case-insensitively),
else a literal `debian/`, else a literal `release/`.  Because the `v`/`r`
test runs first, a name starting with `release/` only ever loses its leading
`r`. -/
def stripTagName (t : List Char) : List Char :=
  let t1 := if t.take 10 = "refs/tags/".data then t.drop 10 else t
  match t1 with
  | [] => []
  | c :: rest =>
    if c == 'v' || c == 'V' || c == 'r' || c == 'R' then rest
    else if t1.take 7 = "debian/".data then t1.drop 7
    else if t1.take 8 = "release/".data then t1.drop 8
    else t1

/-- Embeds the version-shape loop shared by `tag_callback`
(track-release.c:342-362) and `check_release_tag` (utils.c:249-272): skip
leading digits (possibly none), require a `.`, require a digit, then require
every remaining character to be a tag character. -/
def versionBodyOk (t : List Char) : Bool :=
  match t.dropWhile isdigit with
  | [] => false
  | c :: rest =>
    if c = '.' then
      match rest with
      | [] => false
      | d :: _ => isdigit d && rest.all isTagChar
    else false

/-- Embeds the tag matching inlined in `tag_callback` (track-release.c:317-362):
the stripped remainder is accepted verbatim as the version when it is
non-empty and has the version shape.  Note there is no length bound here. -/
def tagCallbackMatch (t : List Char) : Option (List Char) :=
  let r := stripTagName t
  if r = [] then none
  else if versionBodyOk r then some r else none

/-- Embeds `check_release_tag` (utils.c:219-278): as `tagCallbackMatch`, but
additionally rejecting remainders longer than 32 characters. -/
def check_release_tag (t : List Char) : Option (List Char) :=
  let r := stripTagName t
  if r = [] then none
  else if versionBodyOk r then
    if r.length ≤ 32 then some r else none
  else none

/-- Embeds the branch-name validation loop in `branch_callback`
(track-release.c:388-396): every character must be alphanumeric, `-` or `_`.
Note there is no length bound here. -/
def branchNameOk (t : List Char) : Bool :=
  t.all isBranchChar

/-- Embeds `check_release_branch` (utils.c:283-300): as `branchNameOk`, but
additionally rejecting names longer than 32 characters; returns the name
itself on success. -/
def check_release_branch (t : List Char) : Option (List Char) :=
  if t.all isBranchChar then
    if t.length ≤ 32 then some t else none
  else none

/-- One row of the SQLite `releases` table (track-release.c:528-538).
`whenTs` and `addedTs` are the formatted `when` and `added` DATETIME columns;
`built` is NULL (`none`) on insertion and never set by this program. -/
structure Row where
  release : String
  branch : String
  commit : String
  whenTs : String
  addedTs : String
  state : String
  built : Option String
deriving DecidableEq, Repr

/-- Rows matching the `WHERE "release" = version AND "branch" = branch`
clauses of `release_exists` (track-release.c:224,238). -/
def sameKey (version branch : String) (r : Row) : Bool :=
  r.release == version && r.branch == branch

/-- Embeds `release_exists` (track-release.c:218-241).  The first result row
of the `SELECT` decides (`release_exists_cb`, track-release.c:190-212):
no row means "absent" (return `false` with the store untouched); a row with
the same commit means "present" (return `true`); a row with a different
commit triggers the `DELETE` of every row for that key and returns `false`
so the caller inserts afresh. -/
def release_exists (s : List Row) (version branch oidstr : String) :
    Bool × List Row :=
  match (s.filter (sameKey version branch)).head? with
  | none => (false, s)
  | some r =>
    if r.commit == oidstr then (true, s)
    else (false, s.filter (fun x => !sameKey version branch x))

/-- Embeds `add_release` (track-release.c:244-270): inside one transaction,
consult `release_exists`; if it reports an identical existing row, roll back
(no change); otherwise append a fresh row with state `NEW` and a NULL
`built`.  `whenS` is the commit timestamp already formatted by the caller and
`nowS` the formatted current wall-clock time (`added`). -/
def add_release (s : List Row) (branch_name oidstr version whenS nowS : String) :
    List Row :=
  let res := release_exists s version branch_name oidstr
  if res.1 then s
  else res.2 ++ [⟨version, branch_name, oidstr, whenS, nowS, "NEW", none⟩]

/-- One upsert request: the data `add_release` is called with. -/
structure Op where
  version : String
  branch : String
  oidstr : String
  whenTs : String
deriving DecidableEq, Repr

/-- A sequence of `add_release` calls sharing one wall-clock stamp `now`,
as performed by a single run of the tracking pass. -/
def runTrack (now : String) (ops : List Op) (s : List Row) : List Row :=
  ops.foldl (fun acc op => add_release acc op.branch op.oidstr op.version op.whenTs now) s

/-- The `releases` table's primary-key property: no two rows share a
(release, branch) pair (track-release.c:537). -/
def uniqueKeys (s : List Row) : Prop :=
  s.Pairwise (fun a b => ¬(a.release = b.release ∧ a.branch = b.branch))

instance : DecidablePred uniqueKeys := fun s =>
  List.instDecidablePairwise s

/-- The libgit2 `git_time`: seconds since the epoch plus the committer's
UTC offset in minutes. -/
structure GitTime where
  time : Int
  offset : Int
deriving DecidableEq, Repr

/-- A broken-down civil time, as produced by `gmtime_r`. -/
structure Tm where
  year : Int
  mon : Nat
  day : Nat
  hour : Nat
  minute : Nat
  sec : Nat
deriving DecidableEq, Repr

/-- Civil date from a day count relative to 1970-01-01 (the conversion
performed inside `gmtime_r`), via the standard Gregorian era decomposition. -/
def civilFromDays (z0 : Int) : Int × Nat × Nat :=
  let z := z0 + 719468
  let era := z.fdiv 146097
  let doe := (z - era * 146097).toNat
  let yoe := (doe - doe / 1460 + doe / 36524 - doe / 146096) / 365
  let doy := doe - (365 * yoe + yoe / 4 - yoe / 100)
  let mp := (5 * doy + 2) / 153
  let d := doy - (153 * mp + 2) / 5 + 1
  let m := if mp < 10 then mp + 3 else mp - 9
  ((yoe : Int) + era * 400 + (if m ≤ 2 then 1 else 0), m, d)

/-- `gmtime_r`: split an epoch second count into a civil UTC datetime. -/
def epochToTm (t : Int) : Tm :=
  let days := t.fdiv 86400
  let secs := (t - days * 86400).toNat
  let c := civilFromDays days
  ⟨c.1, c.2.1, c.2.2, secs / 3600, secs % 3600 / 60, secs % 60⟩

/-- Embeds `git_gmtime` (track-release.c:171-188) as far as the resulting
`struct tm` is concerned: `gmtime_r` applied to `time + offset * 60`, i.e.
the committer's local wall-clock time rather than UTC.  The hours/minutes/
sign outputs of the C function are unused by track-release.c and omitted. -/
def git_gmtime (g : GitTime) : Tm :=
  epochToTm (g.time + g.offset * 60)

/-- Two-digit zero-padded decimal, as `strftime` produces for `%m`, `%d`,
`%H`, `%M`, `%S` and `%y`. -/
def pad2 (n : Nat) : String :=
  if n < 10 then "0" ++ toString n else toString n

/-- The `"%Y-%m-%d %H:%M:%S"` format used by `add_release`
(track-release.c:254-255) for the `when` and `added` columns. -/
def fmtDateTime (tm : Tm) : String :=
  toString tm.year ++ "-" ++ pad2 tm.mon ++ "-" ++ pad2 tm.day ++ " " ++
    pad2 tm.hour ++ ":" ++ pad2 tm.minute ++ ":" ++ pad2 tm.sec

/-- The `"%y%m.%d%H.%M%S-git"` format used by `add_release_tip`
(track-release.c:296). -/
def fmtTip (tm : Tm) : String :=
  pad2 (tm.year.emod 100).toNat ++ pad2 tm.mon ++ "." ++ pad2 tm.day ++
    pad2 tm.hour ++ "." ++ pad2 tm.minute ++ pad2 tm.sec ++ "-git"

/-- A commit as seen by this program: its formatted 40-character oid and its
committer timestamp (`git_commit_committer(commit)->when`). -/
structure CommitInfo where
  oid : String
  cwhen : GitTime
deriving DecidableEq, Repr

/-- The synthesized tip version (track-release.c:296-297): the local-shifted
committer time formatted as `YYMM.DDHH.MMSS-git`, followed by the first
eight characters of the formatted oid (`oidstr[8] = 0`). -/
def tipVersion (g : GitTime) (oidstr : String) : String :=
  fmtTip (git_gmtime g) ++ String.mk (oidstr.data.take 8)

/-- Embeds `add_release_tip` (track-release.c:273-299), assuming the commit
lookup succeeds: add a release whose version is `tipVersion` and whose
`when` column is the same local-shifted committer time. -/
def add_release_tip (s : List Row) (branch_name : String) (c : CommitInfo)
    (nowS : String) : List Row :=
  add_release s branch_name c.oid (tipVersion c.cwhen c.oid)
    (fmtDateTime (git_gmtime c.cwhen)) nowS

/-- A repository tag: its full reference name and the oid it points at
(annotated tags dereferenced, as `git_tag_foreach` reports them). -/
structure Tag where
  name : List Char
  target : String
deriving DecidableEq, Repr

/-- Embeds `git_tag_foreach(repo, tag_callback, ...)` for one visited commit
(track-release.c:301-372,425-430), assuming commit lookups succeed.
`tag_callback` returns 0 (continue) when the tag points elsewhere or its
name does not match, and performs one `add_release` then returns 1 —
stopping the tag iteration — on the first tag that points at the commit and
matches. -/
def processCommitTags (tags : List Tag) (c : CommitInfo) (branch_name : String)
    (nowS : String) (s : List Row) : List Row :=
  match tags with
  | [] => s
  | tg :: rest =>
    if tg.target == c.oid then
      match tagCallbackMatch tg.name with
      | some v =>
        add_release s branch_name c.oid (String.mk v)
          (fmtDateTime (git_gmtime c.cwhen)) nowS
      | none => processCommitTags rest c branch_name nowS s
    else processCommitTags rest c branch_name nowS s

/-- A local branch as seen by `branch_callback`: its name, its tip commit,
and the topologically sorted ancestry the revwalk yields from the tip. -/
structure Branch where
  name : List Char
  tip : CommitInfo
  ancestry : List CommitInfo
deriving Repr

/-- Embeds `branch_callback` (track-release.c:374-440): reject (report and
skip) a branch whose name fails validation; look up
`release-branch.<name>.track`; on `tip` add the tip release, on `tag` walk
the ancestry matching tags at every visited commit, on anything else warn
and skip. -/
def branch_callback (tags : List Tag) (cfg : List Char → Option String)
    (nowS : String) (s : List Row) (b : Branch) : List Row :=
  if !branchNameOk b.name then s
  else
    match cfg b.name with
    | none => s
    | some m =>
      if m = "tip" then add_release_tip s (String.mk b.name) b.tip nowS
      else if m = "tag" then
        b.ancestry.foldl (fun acc c => processCommitTags tags c (String.mk b.name) nowS acc) s
      else s

/-- Embeds the branch iteration in `main` (track-release.c:540-544). -/
def trackBranches (tags : List Tag) (cfg : List Char → Option String)
    (nowS : String) (bs : List Branch) (s : List Row) : List Row :=
  bs.foldl (branch_callback tags cfg nowS) s

/-- Modelled from the spec: the outcome of invoking the build hook through
the Process execution service (§6): a numeric exit status, or a failure to
launch the hook at all.  No build dispatcher exists under `src/`; only the
release rows it would consume are produced there. -/
inductive HookResult where
  | exit (code : Nat)
  | launchFailure
deriving DecidableEq, Repr

/-- Modelled from the spec: the state `ReleaseStore.recordOutcome` (§4.5)
writes for a hook outcome — `SUCCESS` for exit status 0, `FAILED(code)` for
a non-zero status, and a launch-failure sentinel otherwise (§4.7, §6). -/
def stateOf : HookResult → String
  | .exit 0 => "SUCCESS"
  | .exit c => "FAILED(" ++ toString c ++ ")"
  | .launchFailure => "FAILED(launch)"

/-- Modelled from the spec: `BuildDispatcher.dispatchPending` (§4.7), which
is absent from `src/`.  When the hook is present, every release in state
`NEW` is dispatched sequentially to the hook (arguments commit, branch,
version) and its outcome recorded; rows in other states are untouched.  When
the hook is absent the pass is a no-op. -/
def dispatchPending (hookPresent : Bool)
    (hook : String → String → String → HookResult) (s : List Row) : List Row :=
  if hookPresent then
    s.map (fun r =>
      if r.state = "NEW" then
        { r with state := stateOf (hook r.commit r.branch r.release) }
      else r)
  else s

/-- Follows the words of the spec (§4.1, testable property 3) for the
version shape after prefix-stripping, with the major part amended from
one-or-more digits to the zero-or-more digits the code actually requires:
digits, a full stop, a digit, then characters drawn from the tag charset. -/
def specVersionGrammar (v : List Char) : Prop :=
  ∃ ds d rest, v = ds ++ '.' :: d :: rest ∧ (∀ c ∈ ds, isdigit c = true) ∧
    isdigit d = true ∧ (∀ c ∈ rest, isTagChar c = true)

/-- All upserts of one tracking run that share a (version, branch) key carry
the same commit.  A fixed repository state need not satisfy this: distinct
tag names that strip to one version (such as `V1.0` and `v1.0`) can point at
different commits of the same branch ancestry, and then one run upserts the
shared key with two different commits. -/
def agree (ops : List Op) : Prop :=
  ∀ o1 ∈ ops, ∀ o2 ∈ ops, o1.version = o2.version → o1.branch = o2.branch →
    o1.oidstr = o2.oidstr

theorem dropWhile_append_all {p : Char → Bool} {l1 l2 : List Char}
    (h : ∀ c ∈ l1, p c = true) : (l1 ++ l2).dropWhile p = l2.dropWhile p := by
  induction l1 with
  | nil => rfl
  | cons a l ih =>
    have ha : p a = true := h a (List.mem_cons_self a l)
    have ih2 := ih fun c hc => h c (List.mem_cons_of_mem a hc)
    simp [List.dropWhile_cons, ha, ih2]

theorem isTagChar_of_isdigit {c : Char} (h : isdigit c = true) :
    isTagChar c = true := by
  simp [isTagChar, isalnum, h]

theorem specVersionGrammar_not_nil : ¬specVersionGrammar [] := by
  rintro ⟨ds, d, rest, hv, -, -, -⟩
  simp at hv

theorem versionBodyOk_iff {v : List Char} :
    versionBodyOk v = true ↔ specVersionGrammar v := by
  constructor
  · intro hok
    unfold versionBodyOk at hok
    split at hok
    · exact absurd hok (by simp)
    case _ c rest heq =>
      by_cases hc : c = '.'
      case neg =>
        rw [if_neg hc] at hok
        exact absurd hok (by simp)
      rw [if_pos hc] at hok
      subst hc
      match rest, hok with
      | d :: tail, hok =>
        have hok2 := hok
        rw [Bool.and_eq_true] at hok2
        obtain ⟨hd, hall⟩ := hok2
        refine ⟨v.takeWhile isdigit, d, tail, ?_, ?_, hd, ?_⟩
        · conv_lhs => rw [← List.takeWhile_append_dropWhile (p := isdigit) (l := v)]
          rw [heq]
        · exact fun ch hch => List.mem_takeWhile_imp hch
        · intro ch hch
          exact List.all_eq_true.mp hall ch (List.mem_cons_of_mem d hch)
  · rintro ⟨ds, d, rest, hv, hds, hd, hrest⟩
    subst hv
    unfold versionBodyOk
    rw [dropWhile_append_all hds]
    have hdot : isdigit '.' = false := by decide
    rw [List.dropWhile_cons, hdot]
    simp only [Bool.false_eq_true, if_false, if_pos rfl, if_true]
    rw [Bool.and_eq_true]
    refine ⟨hd, List.all_eq_true.mpr ?_⟩
    intro c hc
    rcases List.mem_cons.mp hc with h | h
    · exact h ▸ isTagChar_of_isdigit hd
    · exact hrest c h

theorem stripTagName_grammar_ne_nil {t v : List Char} (hv : v = stripTagName t)
    (hg : specVersionGrammar v) : stripTagName t ≠ [] := by
  intro hnil
  rw [hnil] at hv
  subst hv
  exact specVersionGrammar_not_nil hg

theorem tagCallbackMatch_iff {t v : List Char} :
    tagCallbackMatch t = some v ↔ v = stripTagName t ∧ specVersionGrammar v := by
  constructor
  · intro h
    simp only [tagCallbackMatch] at h
    split_ifs at h with h1 h2
    obtain rfl := Option.some.inj h
    exact ⟨rfl, versionBodyOk_iff.mp h2⟩
  · rintro ⟨hv, hg⟩
    have hne := stripTagName_grammar_ne_nil hv hg
    subst hv
    have hok : versionBodyOk (stripTagName t) = true := versionBodyOk_iff.mpr hg
    simp only [tagCallbackMatch]
    rw [if_neg hne, if_pos hok]

theorem check_release_tag_iff {t v : List Char} :
    check_release_tag t = some v ↔
      v = stripTagName t ∧ specVersionGrammar v ∧ v.length ≤ 32 := by
  constructor
  · intro h
    simp only [check_release_tag] at h
    split_ifs at h with h1 h2 h3
    obtain rfl := Option.some.inj h
    exact ⟨rfl, versionBodyOk_iff.mp h2, h3⟩
  · rintro ⟨hv, hg, hlen⟩
    have hne := stripTagName_grammar_ne_nil hv hg
    subst hv
    have hok : versionBodyOk (stripTagName t) = true := versionBodyOk_iff.mpr hg
    simp only [check_release_tag]
    rw [if_neg hne, if_pos hok, if_pos hlen]

theorem sameKey_iff {v b : String} {r : Row} :
    sameKey v b r = true ↔ r.release = v ∧ r.branch = b := by
  simp [sameKey]

theorem filter_sameKey_singleton {v b : String} {s : List Row} {r0 : Row}
    (hu : uniqueKeys s) (hm : r0 ∈ s) (hv : r0.release = v) (hb : r0.branch = b) :
    s.filter (sameKey v b) = [r0] := by
  induction s with
  | nil => cases hm
  | cons x rest ih =>
    obtain ⟨hx, hrest⟩ := List.pairwise_cons.mp hu
    rcases List.mem_cons.mp hm with rfl | hm2
    · rw [List.filter_cons_of_pos (sameKey_iff.mpr ⟨hv, hb⟩)]
      have hnil : rest.filter (sameKey v b) = [] :=
        List.filter_eq_nil_iff.mpr fun a ha hp => by
          obtain ⟨ha1, ha2⟩ := sameKey_iff.mp hp
          exact hx a ha ⟨hv.trans ha1.symm, hb.trans ha2.symm⟩
      rw [hnil]
    · have hxkey : ¬(sameKey v b x = true) := fun hp => by
        obtain ⟨hx1, hx2⟩ := sameKey_iff.mp hp
        exact hx r0 hm2 ⟨hx1.trans hv.symm, hx2.trans hb.symm⟩
      rw [List.filter_cons_of_neg hxkey]
      exact ih hrest hm2

theorem add_release_absent {s : List Row} {b oid v w n : String}
    (h : ∀ r ∈ s, ¬(r.release = v ∧ r.branch = b)) :
    add_release s b oid v w n = s ++ [⟨v, b, oid, w, n, "NEW", none⟩] := by
  have hf : s.filter (sameKey v b) = [] :=
    List.filter_eq_nil_iff.mpr fun r hr hp => h r hr (sameKey_iff.mp hp)
  simp [add_release, release_exists, hf]

theorem add_release_same {s : List Row} {b oid v w n : String} {r0 : Row}
    (hu : uniqueKeys s) (hm : r0 ∈ s) (hv : r0.release = v) (hb : r0.branch = b)
    (hc : r0.commit = oid) :
    add_release s b oid v w n = s := by
  have hf := filter_sameKey_singleton hu hm hv hb
  simp [add_release, release_exists, hf, hc]

theorem add_release_replace {s : List Row} {b oid v w n : String} {r0 : Row}
    (hu : uniqueKeys s) (hm : r0 ∈ s) (hv : r0.release = v) (hb : r0.branch = b)
    (hc : ¬(r0.commit = oid)) :
    add_release s b oid v w n =
      s.filter (fun x => !sameKey v b x) ++ [⟨v, b, oid, w, n, "NEW", none⟩] := by
  have hf := filter_sameKey_singleton hu hm hv hb
  simp [add_release, release_exists, hf, hc]

theorem uniqueKeys_add_release {s : List Row} (hu : uniqueKeys s)
    (b oid v w n : String) : uniqueKeys (add_release s b oid v w n) := by
  by_cases hex : ∃ r0 ∈ s, r0.release = v ∧ r0.branch = b
  · obtain ⟨r0, hm, hv, hb⟩ := hex
    by_cases hc : r0.commit = oid
    · rw [add_release_same hu hm hv hb hc]
      exact hu
    · rw [add_release_replace hu hm hv hb hc]
      unfold uniqueKeys
      rw [List.pairwise_append]
      refine ⟨hu.sublist (List.filter_sublist s), List.pairwise_singleton _ _, ?_⟩
      intro a ha y hy
      obtain rfl : y = (⟨v, b, oid, w, n, "NEW", none⟩ : Row) := by
        simpa using hy
      have h2 := (List.mem_filter.mp ha).2
      intro hkey
      rw [Bool.not_eq_eq_eq_not, Bool.not_true, Bool.eq_false_iff] at h2
      exact h2 (sameKey_iff.mpr ⟨hkey.1, hkey.2⟩)
  · have habs : ∀ r ∈ s, ¬(r.release = v ∧ r.branch = b) :=
      fun r hr hp => hex ⟨r, hr, hp⟩
    rw [add_release_absent habs]
    unfold uniqueKeys
    rw [List.pairwise_append]
    refine ⟨hu, List.pairwise_singleton _ _, ?_⟩
    intro a ha y hy
    obtain rfl : y = (⟨v, b, oid, w, n, "NEW", none⟩ : Row) := by
      simpa using hy
    exact habs a ha

theorem mem_add_release {s : List Row} {b oid v w n : String} {r : Row}
    (hr : r ∈ add_release s b oid v w n) :
    r ∈ s ∨ r = ⟨v, b, oid, w, n, "NEW", none⟩ := by
  cases h : (s.filter (sameKey v b)).head? with
  | none =>
    simp only [add_release, release_exists, h] at hr
    rcases List.mem_append.mp hr with hin | hin
    · exact Or.inl hin
    · exact Or.inr (by simpa using hin)
  | some r1 =>
    by_cases hc : r1.commit = oid
    · simp only [add_release, release_exists, h, hc] at hr
      simp at hr
      exact Or.inl hr
    · have hcb : (r1.commit == oid) = false := by simp [hc]
      simp only [add_release, release_exists, h, hcb, Bool.false_eq_true,
        if_false] at hr
      rcases List.mem_append.mp hr with hin | hin
      · exact Or.inl (List.mem_of_mem_filter hin)
      · exact Or.inr (by simpa using hin)

theorem removed_row_has_key {s : List Row} {b oid v w n : String} {r : Row}
    (hr : r ∈ s) (hnot : r ∉ add_release s b oid v w n) :
    r.release = v ∧ r.branch = b := by
  by_contra hkey
  apply hnot
  have hsk : sameKey v b r = false := by
    cases hsk : sameKey v b r with
    | false => rfl
    | true => exact absurd (sameKey_iff.mp hsk) hkey
  cases h : (s.filter (sameKey v b)).head? with
  | none =>
    simp only [add_release, release_exists, h]
    simp
    exact Or.inl hr
  | some r1 =>
    by_cases hc : r1.commit = oid
    · simp only [add_release, release_exists, h, hc]
      simpa using hr
    · have hcb : (r1.commit == oid) = false := by simp [hc]
      simp only [add_release, release_exists, h, hcb, Bool.false_eq_true,
        if_false]
      exact List.mem_append.mpr (Or.inl (List.mem_filter.mpr ⟨hr, by simp [hsk]⟩))

theorem contains_add_release_self (s : List Row) (b oid v w n : String) :
    ∃ r ∈ add_release s b oid v w n,
      r.release = v ∧ r.branch = b ∧ r.commit = oid := by
  cases h : (s.filter (sameKey v b)).head? with
  | none =>
    refine ⟨⟨v, b, oid, w, n, "NEW", none⟩, ?_, rfl, rfl, rfl⟩
    simp [add_release, release_exists, h]
  | some r1 =>
    have hr1mem : r1 ∈ s.filter (sameKey v b) :=
      List.mem_of_mem_head? (Option.mem_def.mpr h)
    have hkeys := sameKey_iff.mp (List.of_mem_filter hr1mem)
    have hr1s := List.mem_of_mem_filter hr1mem
    by_cases hc : r1.commit = oid
    · refine ⟨r1, ?_, hkeys.1, hkeys.2, hc⟩
      simp only [add_release, release_exists, h, hc]
      simpa using hr1s
    · refine ⟨⟨v, b, oid, w, n, "NEW", none⟩, ?_, rfl, rfl, rfl⟩
      have hcb : (r1.commit == oid) = false := by simp [hc]
      simp [add_release, release_exists, h, hcb]

theorem contains_add_release_other {s : List Row} {v b c : String} {r0 : Row}
    (hr0 : r0 ∈ s) (hk : r0.release = v ∧ r0.branch = b ∧ r0.commit = c)
    {bn oid vv w n : String} (hdiff : ¬(vv = v ∧ bn = b)) :
    r0 ∈ add_release s bn oid vv w n := by
  have hsk : sameKey vv bn r0 = false := by
    cases hsk : sameKey vv bn r0 with
    | false => rfl
    | true =>
      obtain ⟨h1, h2⟩ := sameKey_iff.mp hsk
      exact absurd ⟨h1.symm.trans hk.1, h2.symm.trans hk.2.1⟩ hdiff
  cases h : (s.filter (sameKey vv bn)).head? with
  | none =>
    simp only [add_release, release_exists, h]
    simp
    exact Or.inl hr0
  | some r1 =>
    by_cases hc : r1.commit = oid
    · simp only [add_release, release_exists, h, hc]
      simpa using hr0
    · have hcb : (r1.commit == oid) = false := by simp [hc]
      simp only [add_release, release_exists, h, hcb, Bool.false_eq_true,
        if_false]
      exact List.mem_append.mpr (Or.inl (List.mem_filter.mpr ⟨hr0, by simp [hsk]⟩))

theorem runTrack_cons (now : String) (op : Op) (ops : List Op) (s : List Row) :
    runTrack now (op :: ops) s =
      runTrack now ops (add_release s op.branch op.oidstr op.version op.whenTs now) :=
  rfl

theorem runTrack_unique {s : List Row} (hu : uniqueKeys s) (now : String)
    (ops : List Op) : uniqueKeys (runTrack now ops s) := by
  induction ops generalizing s with
  | nil => exact hu
  | cons o rest ih =>
    rw [runTrack_cons]
    exact ih (uniqueKeys_add_release hu _ _ _ _ _)

theorem runTrack_contains {v b c : String} {s : List Row} (now : String)
    (ops : List Op) (hu : uniqueKeys s)
    (hc : ∃ r ∈ s, r.release = v ∧ r.branch = b ∧ r.commit = c)
    (hag : ∀ op ∈ ops, op.version = v → op.branch = b → op.oidstr = c) :
    ∃ r ∈ runTrack now ops s, r.release = v ∧ r.branch = b ∧ r.commit = c := by
  induction ops generalizing s with
  | nil => exact hc
  | cons o rest ih =>
    rw [runTrack_cons]
    refine ih (uniqueKeys_add_release hu _ _ _ _ _) ?_
      (fun op hop => hag op (List.mem_cons_of_mem _ hop))
    by_cases hko : o.version = v ∧ o.branch = b
    · have hoid : o.oidstr = c := hag o (List.mem_cons_self _ _) hko.1 hko.2
      obtain ⟨r, hrm, h1, h2, h3⟩ :=
        contains_add_release_self s o.branch o.oidstr o.version o.whenTs now
      exact ⟨r, hrm, hko.1 ▸ h1, hko.2 ▸ h2, hoid ▸ h3⟩
    · obtain ⟨r0, hr0, hk⟩ := hc
      exact ⟨r0, contains_add_release_other hr0 hk hko, hk⟩

theorem runTrack_contains_of_mem {s : List Row} (now : String) {ops : List Op}
    (hu : uniqueKeys s) (hag : agree ops) {op : Op} (hop : op ∈ ops) :
    ∃ r ∈ runTrack now ops s,
      r.release = op.version ∧ r.branch = op.branch ∧ r.commit = op.oidstr := by
  induction ops generalizing s with
  | nil => cases hop
  | cons o rest ih =>
    rw [runTrack_cons]
    rcases List.mem_cons.mp hop with rfl | hop2
    · refine runTrack_contains now rest (uniqueKeys_add_release hu _ _ _ _ _)
        (contains_add_release_self s op.branch op.oidstr op.version op.whenTs now) ?_
      intro op2 hop2 hv hb
      exact hag op2 (List.mem_cons_of_mem _ hop2) op (List.mem_cons_self _ _) hv hb
    · exact ih (uniqueKeys_add_release hu _ _ _ _ _)
        (fun o1 h1 o2 h2 => hag o1 (List.mem_cons_of_mem _ h1) o2 (List.mem_cons_of_mem _ h2))
        hop2

theorem runTrack_skip_all {now : String} {ops : List Op} {s : List Row}
    (hskip : ∀ op ∈ ops,
      add_release s op.branch op.oidstr op.version op.whenTs now = s) :
    runTrack now ops s = s := by
  induction ops with
  | nil => rfl
  | cons o rest ih =>
    rw [runTrack_cons, hskip o (List.mem_cons_self _ _)]
    exact ih fun op hop => hskip op (List.mem_cons_of_mem _ hop)

/-- Claim C1 (confirmed): in a store satisfying the primary-key invariant,
upserting a (version, branch) pair that is persisted against commit A with a
different commit B leaves exactly one row for that pair — commit B, state
NEW, and the fresh `added` stamp of this upsert — and the old row for A is
gone. -/
theorem C1_replace_on_mismatch (s : List Row) (v b A B w n : String) (r0 : Row)
    (hu : uniqueKeys s) (hm : r0 ∈ s) (hv : r0.release = v) (hb : r0.branch = b)
    (hA : r0.commit = A) (hBA : B ≠ A) :
    (add_release s b B v w n).filter (sameKey v b) =
      [⟨v, b, B, w, n, "NEW", none⟩] ∧
    r0 ∉ add_release s b B v w n := by
  have hc : ¬(r0.commit = B) := by
    rw [hA]
    exact fun h => hBA h.symm
  rw [add_release_replace hu hm hv hb hc]
  constructor
  · rw [List.filter_append]
    have h1 : (s.filter (fun x => !sameKey v b x)).filter (sameKey v b) = [] :=
      List.filter_eq_nil_iff.mpr fun a ha hp => by
        have h2 := (List.mem_filter.mp ha).2
        simp [hp] at h2
    rw [h1]
    simp [sameKey]
  · intro hmem
    rcases List.mem_append.mp hmem with hin | hin
    · have h2 := (List.mem_filter.mp hin).2
      simp [sameKey, hv, hb] at h2
    · have h3 : r0 = (⟨v, b, B, w, n, "NEW", none⟩ : Row) := by simpa using hin
      rw [h3] at hA
      exact hBA (by simpa using hA)

/-- Claim C1, witness: replacing commit A by commit B for key (1.0, b). -/
theorem C1_witness :
    (add_release [⟨"1.0", "b", "A", "w", "n1", "NEW", none⟩] "b" "B" "1.0" "w2" "n2").filter
        (sameKey "1.0" "b") = [⟨"1.0", "b", "B", "w2", "n2", "NEW", none⟩] ∧
    (⟨"1.0", "b", "A", "w", "n1", "NEW", none⟩ : Row) ∉
      add_release [⟨"1.0", "b", "A", "w", "n1", "NEW", none⟩] "b" "B" "1.0" "w2" "n2" :=
  by
  refine C1_replace_on_mismatch [⟨"1.0", "b", "A", "w", "n1", "NEW", none⟩]
    "1.0" "b" "A" "B" "w2" "n2"
    (⟨"1.0", "b", "A", "w", "n1", "NEW", none⟩ : Row) ?_ ?_ rfl rfl rfl ?_
  · decide
  · decide
  · decide

/-- Claim C2, counterexample to run-level idempotence: from one fixed
repository state — tags `V1.0` and `v1.0` pointing at two different commits
of one tag-tracked branch, both stripping to version `1.0` — the tracking
pass upserts the key (1.0, stable) with two different commits, so replaying
the pass against the unchanged repository deletes and re-inserts that row,
refreshing its `added` stamp: the store after the second run differs from
the store after the first. -/
theorem C2_counterexample :
    trackBranches
        [⟨"V1.0".data, "aaaaaaaaaaaaaaaaaaaaaaaaaaaaaaaaaaaaaaaa"⟩,
         ⟨"v1.0".data, "bbbbbbbbbbbbbbbbbbbbbbbbbbbbbbbbbbbbbbbb"⟩]
        (fun _ => some "tag") "n1"
        [⟨"stable".data,
          ⟨"aaaaaaaaaaaaaaaaaaaaaaaaaaaaaaaaaaaaaaaa", ⟨1709634030, 0⟩⟩,
          [⟨"aaaaaaaaaaaaaaaaaaaaaaaaaaaaaaaaaaaaaaaa", ⟨1709634030, 0⟩⟩,
           ⟨"bbbbbbbbbbbbbbbbbbbbbbbbbbbbbbbbbbbbbbbb", ⟨1709634090, 0⟩⟩]⟩] [] =
      [⟨"1.0", "stable", "bbbbbbbbbbbbbbbbbbbbbbbbbbbbbbbbbbbbbbbb",
        "2024-03-05 10:21:30", "n1", "NEW", none⟩] ∧
    trackBranches
        [⟨"V1.0".data, "aaaaaaaaaaaaaaaaaaaaaaaaaaaaaaaaaaaaaaaa"⟩,
         ⟨"v1.0".data, "bbbbbbbbbbbbbbbbbbbbbbbbbbbbbbbbbbbbbbbb"⟩]
        (fun _ => some "tag") "n2"
        [⟨"stable".data,
          ⟨"aaaaaaaaaaaaaaaaaaaaaaaaaaaaaaaaaaaaaaaa", ⟨1709634030, 0⟩⟩,
          [⟨"aaaaaaaaaaaaaaaaaaaaaaaaaaaaaaaaaaaaaaaa", ⟨1709634030, 0⟩⟩,
           ⟨"bbbbbbbbbbbbbbbbbbbbbbbbbbbbbbbbbbbbbbbb", ⟨1709634090, 0⟩⟩]⟩]
        [⟨"1.0", "stable", "bbbbbbbbbbbbbbbbbbbbbbbbbbbbbbbbbbbbbbbb",
          "2024-03-05 10:21:30", "n1", "NEW", none⟩] =
      [⟨"1.0", "stable", "bbbbbbbbbbbbbbbbbbbbbbbbbbbbbbbbbbbbbbbb",
        "2024-03-05 10:21:30", "n2", "NEW", none⟩] ∧
    ¬([⟨"1.0", "stable", "bbbbbbbbbbbbbbbbbbbbbbbbbbbbbbbbbbbbbbbb",
        "2024-03-05 10:21:30", "n2", "NEW", none⟩] =
      [(⟨"1.0", "stable", "bbbbbbbbbbbbbbbbbbbbbbbbbbbbbbbbbbbbbbbb",
        "2024-03-05 10:21:30", "n1", "NEW", none⟩ : Row)]) := by
  decide

/-- Claim C2 (amended): an upsert whose (version, branch) pair is already
persisted with the same commit leaves the store unchanged; and a second
tracking run over the same upserts reproduces the store of the first run
exactly — whatever wall-clock stamps the two runs use — provided the upserts
that share a (version, branch) key within the run all carry one commit.
Without that proviso the second run is not the identity: each run replaces
the shared key's row and refreshes its `added` stamp. -/
theorem C2_idempotent_upsert :
    (∀ (s : List Row) (v b c w n : String) (r0 : Row),
      uniqueKeys s → r0 ∈ s → r0.release = v → r0.branch = b → r0.commit = c →
      add_release s b c v w n = s) ∧
    (∀ (now1 now2 : String) (ops : List Op), agree ops →
      runTrack now2 ops (runTrack now1 ops []) = runTrack now1 ops []) := by
  constructor
  · intro s v b c w n r0 hu hm hv hb hc
    exact add_release_same hu hm hv hb hc
  · intro now1 now2 ops hag
    have hu1 : uniqueKeys (runTrack now1 ops []) :=
      runTrack_unique List.Pairwise.nil now1 ops
    apply runTrack_skip_all
    intro op hop
    obtain ⟨r, hrm, h1, h2, h3⟩ :=
      runTrack_contains_of_mem now1 List.Pairwise.nil hag hop
    exact add_release_same hu1 hrm h1 h2 h3

/-- Claim C2, witness: a skipped-identical upsert and a repeated
single-upsert run. -/
theorem C2_witness :
    add_release [⟨"1.0", "b", "A", "w", "n1", "NEW", none⟩] "b" "A" "1.0" "w2" "n2" =
      [⟨"1.0", "b", "A", "w", "n1", "NEW", none⟩] ∧
    runTrack "n2" [⟨"1.0", "b", "A", "w"⟩] (runTrack "n1" [⟨"1.0", "b", "A", "w"⟩] []) =
      runTrack "n1" [⟨"1.0", "b", "A", "w"⟩] [] :=
  ⟨C2_idempotent_upsert.1 [⟨"1.0", "b", "A", "w", "n1", "NEW", none⟩]
      "1.0" "b" "A" "w2" "n2"
      (⟨"1.0", "b", "A", "w", "n1", "NEW", none⟩ : Row) (by decide) (by decide)
      rfl rfl rfl,
   C2_idempotent_upsert.2 "n1" "n2" _ (by
      intro o1 h1 o2 h2 _ _
      simp at h1 h2
      rw [h1, h2])⟩

/-- Claim C3 (confirmed): a single upsert preserves the at-most-one-row-per-
(version, branch) invariant, and hence every store reachable from the empty
store by a sequence of upserts satisfies it — the store never holds two rows
with the same (version, branch). -/
theorem C3_primary_key_unique :
    (∀ (s : List Row) (b oid v w n : String),
      uniqueKeys s → uniqueKeys (add_release s b oid v w n)) ∧
    (∀ (now : String) (ops : List Op), uniqueKeys (runTrack now ops [])) :=
  ⟨fun _ b oid v w n hu => uniqueKeys_add_release hu b oid v w n,
   fun now ops => runTrack_unique List.Pairwise.nil now ops⟩

/-- Claim C3, witness: one preservation step at a concrete store. -/
theorem C3_witness :
    uniqueKeys (add_release [⟨"1.0", "b", "A", "w", "n", "NEW", none⟩]
      "b" "B" "2.0" "w2" "n2") :=
  C3_primary_key_unique.1 _ "b" "B" "2.0" "w2" "n2" (by decide)

/-- Claim C10 (confirmed): an upsert never modifies a row in place — every
row of the resulting store is either a row of the old store, unchanged in
all columns, or the single freshly inserted row with state NEW and built
NULL; and the only rows an upsert can remove whole are those carrying the
upserted (version, branch) key. -/
theorem C10_no_in_place_update :
    (∀ (s : List Row) (b oid v w n : String) (r : Row),
      r ∈ add_release s b oid v w n →
        r ∈ s ∨ r = ⟨v, b, oid, w, n, "NEW", none⟩) ∧
    (∀ (s : List Row) (b oid v w n : String) (r : Row),
      r ∈ s → r ∉ add_release s b oid v w n →
        r.release = v ∧ r.branch = b) :=
  ⟨fun _ _ _ _ _ _ _ hr => mem_add_release hr,
   fun _ _ _ _ _ _ _ hr hnot => removed_row_has_key hr hnot⟩

/-- Claim C10, witness: the inserted row of a fresh upsert, and the key of a
row removed by a replacement. -/
theorem C10_witness :
    ((⟨"1.0", "b", "A", "w", "n", "NEW", none⟩ : Row) ∈ ([] : List Row) ∨
      (⟨"1.0", "b", "A", "w", "n", "NEW", none⟩ : Row) =
        ⟨"1.0", "b", "A", "w", "n", "NEW", none⟩) ∧
    ((⟨"2.0", "b", "A", "w", "n", "NEW", none⟩ : Row).release = "2.0" ∧
      (⟨"2.0", "b", "A", "w", "n", "NEW", none⟩ : Row).branch = "b") :=
  ⟨C10_no_in_place_update.1 [] "b" "A" "1.0" "w" "n" _ (by decide),
   C10_no_in_place_update.2 [⟨"2.0", "b", "A", "w", "n", "NEW", none⟩]
     "b" "B" "2.0" "w2" "n2" _ (by decide) (by decide)⟩

/-- Claim C4, counterexample to the stated grammar: the matchers skip zero
or more digits before the full stop, so `v.5` is accepted (as `.5`) although
the claim says it is rejected for lacking a leading digit; and the matcher
inlined in `tag_callback` applies no length bound, accepting a 33-character
version although the claim says any accepted version has at most 32
characters. -/
theorem C4_counterexample :
    check_release_tag ("v.5".data) = some (".5".data) ∧
    tagCallbackMatch ("v1.0123456789012345678901234567890".data) =
      some ("1.0123456789012345678901234567890".data) ∧
    ("1.0123456789012345678901234567890".data).length = 33 := by
  decide

/-- Claim C4 (amended): the matcher inlined in `tag_callback` accepts a tag
iff, after stripping at most one recognized prefix (a leading `v` or `r`
case-insensitively, else the literal `debian/` or `release/`), the remainder
matches zero-or-more digits, then a full stop, then a digit, then zero or
more characters from the tag charset, and the remainder is returned verbatim
as the version; `check_release_tag` in utils.c applies the same grammar and
additionally requires the remainder to be at most 32 characters long. -/
theorem C4_tag_grammar :
    (∀ t v : List Char, tagCallbackMatch t = some v ↔
      v = stripTagName t ∧ specVersionGrammar v) ∧
    (∀ t v : List Char, check_release_tag t = some v ↔
      v = stripTagName t ∧ specVersionGrammar v ∧ v.length ≤ 32) :=
  ⟨fun _ _ => tagCallbackMatch_iff, fun _ _ => check_release_tag_iff⟩

/-- Claim C5, counterexample: the branch-name loop in `branch_callback`
applies no length bound, so a 33-character all-letter branch name is
accepted for release-tracking although the claim says it is rejected; only
`check_release_branch` in utils.c (which track-release.c does not call)
rejects it. -/
theorem C5_counterexample :
    branchNameOk (List.replicate 33 'a') = true ∧
    (List.replicate 33 'a').length = 33 ∧
    check_release_branch (List.replicate 33 'a') = none := by
  decide

/-- Claim C5 (amended): `branch_callback` accepts a branch for
release-tracking iff every character of its name is alphanumeric, a hyphen
or an underscore, with no length bound (so `foo/bar` is rejected but a
33-character all-letter name is accepted); `check_release_branch` in utils.c
additionally requires at most 32 characters; and a branch rejected by the
validation is skipped without aborting the run — the remaining branches are
still processed against the unchanged store. -/
theorem C5_branch_validation :
    (∀ t : List Char, branchNameOk t = true ↔ ∀ c ∈ t, isBranchChar c = true) ∧
    (∀ t v : List Char, check_release_branch t = some v ↔
      v = t ∧ (∀ c ∈ t, isBranchChar c = true) ∧ t.length ≤ 32) ∧
    (∀ (tags : List Tag) (cfg : List Char → Option String) (nowS : String)
      (s : List Row) (b : Branch) (bs : List Branch),
      branchNameOk b.name = false →
      trackBranches tags cfg nowS (b :: bs) s = trackBranches tags cfg nowS bs s) := by
  refine ⟨fun t => List.all_eq_true, fun t v => ?_, fun tags cfg nowS s b bs h => ?_⟩
  · constructor
    · intro h
      simp only [check_release_branch] at h
      split_ifs at h with h1 h2
      obtain rfl := Option.some.inj h
      exact ⟨rfl, List.all_eq_true.mp h1, h2⟩
    · rintro ⟨rfl, hall, hlen⟩
      simp only [check_release_branch]
      rw [if_pos (List.all_eq_true.mpr hall), if_pos hlen]
  · simp [trackBranches, branch_callback, h]

/-- Claim C5, witness for the skip clause: one badly named branch in front
of an empty branch list leaves the run over the remaining branches
unchanged. -/
theorem C5_witness :
    trackBranches [] (fun _ => none) "now"
        (⟨"foo/bar".data, ⟨"o", ⟨0, 0⟩⟩, []⟩ :: []) [] =
      trackBranches [] (fun _ => none) "now" [] [] :=
  C5_branch_validation.2.2 [] (fun _ => none) "now" []
    ⟨"foo/bar".data, ⟨"o", ⟨0, 0⟩⟩, []⟩ [] (by decide)

/-- Claim C6, counterexample: the synthesized tip version appends the first
eight characters of the commit id, not the seven-character short id of the
example — for a commit whose id starts `abcdef1` the version ends
`-gitabcdef10`, not `-gitabcdef1` — and uses the committer-local time, not
UTC: at offset +60 the same epoch second 1709634030 (2024-03-05T10:20:30Z)
yields `2403.0511.2030`, an hour ahead of the UTC field of the claim. -/
theorem C6_counterexample :
    tipVersion ⟨1709634030, 0⟩ "abcdef1000000000000000000000000000000000" =
      "2403.0510.2030-gitabcdef10" ∧
    ¬("2403.0510.2030-gitabcdef10" = "2403.0510.2030-gitabcdef1") ∧
    tipVersion ⟨1709634030, 60⟩ "abcdef1000000000000000000000000000000000" =
      "2403.0511.2030-gitabcdef10" := by
  decide

/-- Claim C6 (amended): for a tip-tracked branch the synthesized version is
the committer time shifted by its UTC offset (the committer-local wall
clock, equal to UTC exactly when the offset is zero) formatted as
`YYMM.DDHH.MMSS-git`, followed by the first eight characters of the commit
id; it is a function of the (timestamp, first-eight-characters) pair; and
for committer time 2024-03-05T10:20:30+0000 and commit id `abcdef1` followed
by 33 zeros the resulting row has version `2403.0510.2030-gitabcdef10`,
state NEW. -/
theorem C6_tip_version :
    (∀ nowS : String,
      add_release_tip [] "master"
          ⟨"abcdef1000000000000000000000000000000000", ⟨1709634030, 0⟩⟩ nowS =
        [⟨"2403.0510.2030-gitabcdef10", "master",
          "abcdef1000000000000000000000000000000000",
          "2024-03-05 10:20:30", nowS, "NEW", none⟩]) ∧
    (∀ (g : GitTime) (o1 o2 : String), o1.data.take 8 = o2.data.take 8 →
      tipVersion g o1 = tipVersion g o2) ∧
    (∀ t : Int, git_gmtime ⟨t, 0⟩ = epochToTm t) := by
  refine ⟨?_, ?_, ?_⟩
  · intro nowS
    simp only [add_release_tip, add_release, release_exists, sameKey,
      List.filter_nil, List.head?_nil, List.nil_append]
    refine List.cons_eq_cons.mpr ⟨?_, rfl⟩
    simp only [Row.mk.injEq, and_true, true_and]
    exact ⟨by decide, by decide⟩
  · intro g o1 o2 h
    simp [tipVersion, h]
  · intro t
    norm_num [git_gmtime]

/-- Claim C6, witness: the amended statement at the example commit, at equal
eight-character id heads, and at offset zero. -/
theorem C6_witness :
    add_release_tip [] "master"
        ⟨"abcdef1000000000000000000000000000000000", ⟨1709634030, 0⟩⟩ "NOW" =
      [⟨"2403.0510.2030-gitabcdef10", "master",
        "abcdef1000000000000000000000000000000000",
        "2024-03-05 10:20:30", "NOW", "NEW", none⟩] ∧
    tipVersion ⟨0, 0⟩ "abc" = tipVersion ⟨0, 0⟩ "abc" ∧
    git_gmtime ⟨5, 0⟩ = epochToTm 5 :=
  ⟨C6_tip_version.1 "NOW", C6_tip_version.2.1 ⟨0, 0⟩ "abc" "abc" rfl,
   C6_tip_version.2.2 5⟩

/-- Claim C7, counterexample: for a commit at epoch second 1709634030 with
UTC offset +120 minutes, the `when` value written to the release row is
`2024-03-05 12:20:30`, while the UTC rendering of that instant is
`2024-03-05 10:20:30` — the stored timestamp is not normalized to UTC. -/
theorem C7_counterexample :
    processCommitTags
        [⟨"v1.0".data, "aaaaaaaaaaaaaaaaaaaaaaaaaaaaaaaaaaaaaaaa"⟩]
        ⟨"aaaaaaaaaaaaaaaaaaaaaaaaaaaaaaaaaaaaaaaa", ⟨1709634030, 120⟩⟩
        "stable" "N" [] =
      [⟨"1.0", "stable", "aaaaaaaaaaaaaaaaaaaaaaaaaaaaaaaaaaaaaaaa",
        "2024-03-05 12:20:30", "N", "NEW", none⟩] ∧
    fmtDateTime (epochToTm 1709634030) = "2024-03-05 10:20:30" := by
  decide

/-- Claim C7 (amended): the timestamp written to the `when` column is the
commit epoch time shifted by its UTC offset — the committer-local wall
clock — formatted as `YYYY-MM-DD HH:MM:SS`; it coincides with the
UTC-normalized time exactly when the offset is zero. -/
theorem C7_when_local_time :
    (∀ g : GitTime, g.offset = 0 → git_gmtime g = epochToTm g.time) ∧
    (∀ t off : Int, git_gmtime ⟨t, off⟩ = git_gmtime ⟨t + off * 60, 0⟩) ∧
    fmtDateTime (git_gmtime ⟨1709634030, 120⟩) = "2024-03-05 12:20:30" := by
  refine ⟨?_, ?_, by decide⟩
  · rintro ⟨t, off⟩ h
    simp only at h
    subst h
    norm_num [git_gmtime]
  · intro t off
    norm_num [git_gmtime]

/-- Claim C7, witness: the offset-zero case at a concrete time. -/
theorem C7_witness : git_gmtime ⟨7, 0⟩ = epochToTm 7 :=
  C7_when_local_time.1 ⟨7, 0⟩ rfl

theorem processCommitTags_of_no_match {tags : List Tag} {c : CommitInfo}
    {bn nowS : String} {s : List Row}
    (h : ∀ tg ∈ tags, ¬((tg.target == c.oid && (tagCallbackMatch tg.name).isSome) = true)) :
    processCommitTags tags c bn nowS s = s := by
  induction tags with
  | nil => rfl
  | cons tg rest ih =>
    have htg := h tg (List.mem_cons_self _ _)
    cases ht : tg.target == c.oid with
    | false =>
      simp only [processCommitTags, ht, Bool.false_eq_true, if_false]
      exact ih fun x hx => h x (List.mem_cons_of_mem _ hx)
    | true =>
      have hnone : tagCallbackMatch tg.name = none := by
        cases hm : tagCallbackMatch tg.name with
        | none => rfl
        | some v => exact absurd (by simp [ht, hm]) htg
      simp only [processCommitTags, ht, if_true, hnone]
      exact ih fun x hx => h x (List.mem_cons_of_mem _ hx)

theorem processCommitTags_first_match {tags : List Tag} {c : CommitInfo}
    {bn nowS : String} {s : List Row} {tg : Tag}
    (h : tags.find? (fun x => x.target == c.oid && (tagCallbackMatch x.name).isSome) =
      some tg) :
    ∃ v, tagCallbackMatch tg.name = some v ∧
      processCommitTags tags c bn nowS s =
        add_release s bn c.oid (String.mk v) (fmtDateTime (git_gmtime c.cwhen)) nowS := by
  induction tags with
  | nil => cases h
  | cons a rest ih =>
    by_cases hp : (a.target == c.oid && (tagCallbackMatch a.name).isSome) = true
    · rw [List.find?_cons_of_pos
        (p := fun x : Tag => x.target == c.oid && (tagCallbackMatch x.name).isSome)
        rest hp] at h
      obtain rfl : a = tg := Option.some.inj h
      obtain ⟨ht, hsome⟩ :
          (a.target == c.oid) = true ∧ (tagCallbackMatch a.name).isSome = true := by
        simpa using hp
      obtain ⟨v, hv⟩ := Option.isSome_iff_exists.mp hsome
      refine ⟨v, hv, ?_⟩
      simp only [processCommitTags, ht, if_true, hv]
    · rw [List.find?_cons_of_neg
        (p := fun x : Tag => x.target == c.oid && (tagCallbackMatch x.name).isSome)
        rest hp] at h
      obtain ⟨v, hv, hrec⟩ := ih h
      refine ⟨v, hv, ?_⟩
      cases ht : a.target == c.oid with
      | false =>
        simp only [processCommitTags, ht, Bool.false_eq_true, if_false]
        exact hrec
      | true =>
        have hnone : tagCallbackMatch a.name = none := by
          cases hm : tagCallbackMatch a.name with
          | none => rfl
          | some v2 => exact absurd (by simp [ht, hm]) hp
        simp only [processCommitTags, ht, if_true, hnone]
        exact hrec

/-- Claim C8, counterexample: two matching tags `v1.0` and `v2.0` both point
at the same visited commit, but the resulting store holds only the `1.0`
release — `tag_callback` returns 1 after its first successful match, which
stops `git_tag_foreach`, so the matching tag `v2.0` never yields an upsert
although the claim requires one per matching tag. -/
theorem C8_counterexample :
    processCommitTags
        [⟨"v1.0".data, "aaaaaaaaaaaaaaaaaaaaaaaaaaaaaaaaaaaaaaaa"⟩,
         ⟨"v2.0".data, "aaaaaaaaaaaaaaaaaaaaaaaaaaaaaaaaaaaaaaaa"⟩]
        ⟨"aaaaaaaaaaaaaaaaaaaaaaaaaaaaaaaaaaaaaaaa", ⟨1709634030, 0⟩⟩
        "stable" "N" [] =
      [⟨"1.0", "stable", "aaaaaaaaaaaaaaaaaaaaaaaaaaaaaaaaaaaaaaaa",
        "2024-03-05 10:20:30", "N", "NEW", none⟩] ∧
    (tagCallbackMatch ("v2.0".data)).isSome = true := by
  decide

/-- Claim C8 (amended): at each visited commit the tags are offered in
enumeration order only until the first one that points at that commit and
matches the version grammar; that first match yields exactly one upsert
(with the matched version, the branch, the commit and its timestamp) and
stops the tag iteration for the commit, so later matching tags yield no
upsert; if no tag pointing at the commit matches, the store is unchanged. -/
theorem C8_first_match_only :
    (∀ (tags : List Tag) (c : CommitInfo) (bn nowS : String) (s : List Row),
      tags.find? (fun x => x.target == c.oid && (tagCallbackMatch x.name).isSome) =
        none →
      processCommitTags tags c bn nowS s = s) ∧
    (∀ (tags : List Tag) (c : CommitInfo) (bn nowS : String) (s : List Row)
      (tg : Tag),
      tags.find? (fun x => x.target == c.oid && (tagCallbackMatch x.name).isSome) =
        some tg →
      ∃ v, tagCallbackMatch tg.name = some v ∧
        processCommitTags tags c bn nowS s =
          add_release s bn c.oid (String.mk v)
            (fmtDateTime (git_gmtime c.cwhen)) nowS) :=
  ⟨fun tags c bn nowS s h =>
    processCommitTags_of_no_match (by
      intro tg htg hp
      exact absurd (List.find?_eq_none.mp h tg htg) (by simp [hp])),
   fun tags c bn nowS s tg h => processCommitTags_first_match h⟩

/-- Claim C8, witness: a single matching tag produces exactly the upsert of
its matched version. -/
theorem C8_witness :
    ∃ v, tagCallbackMatch ("v1.0".data) = some v ∧
      processCommitTags [⟨"v1.0".data, "aaaaaaaaaaaaaaaaaaaaaaaaaaaaaaaaaaaaaaaa"⟩]
          ⟨"aaaaaaaaaaaaaaaaaaaaaaaaaaaaaaaaaaaaaaaa", ⟨1709634030, 0⟩⟩
          "stable" "N" [] =
        add_release [] "stable" "aaaaaaaaaaaaaaaaaaaaaaaaaaaaaaaaaaaaaaaa"
          (String.mk v)
          (fmtDateTime (git_gmtime ⟨1709634030, 0⟩)) "N" :=
  C8_first_match_only.2
    [⟨"v1.0".data, "aaaaaaaaaaaaaaaaaaaaaaaaaaaaaaaaaaaaaaaa"⟩]
    ⟨"aaaaaaaaaaaaaaaaaaaaaaaaaaaaaaaaaaaaaaaa", ⟨1709634030, 0⟩⟩
    "stable" "N" [] ⟨"v1.0".data, "aaaaaaaaaaaaaaaaaaaaaaaaaaaaaaaaaaaaaaaa"⟩
    (by decide)

theorem stateOf_ne_NEW (h : HookResult) : ¬(stateOf h = "NEW") := by
  cases h with
  | exit c =>
    cases c with
    | zero => decide
    | succ n =>
      intro heq
      have hlen := congrArg String.length heq
      rw [show stateOf (HookResult.exit (n + 1)) =
            "FAILED(" ++ toString (n + 1) ++ ")" from rfl] at hlen
      rw [String.length_append, String.length_append] at hlen
      have h7 : "FAILED(".length = 7 := rfl
      have h1 : ")".length = 1 := rfl
      have h3 : "NEW".length = 3 := rfl
      rw [h7, h1, h3] at hlen
      omega
  | launchFailure => decide

theorem stateOf_cases (h : HookResult) :
    (h = HookResult.exit 0 ∧ stateOf h = "SUCCESS") ∨
    (∃ c, ¬(c = 0) ∧ h = HookResult.exit c ∧
      stateOf h = "FAILED(" ++ toString c ++ ")") ∨
    (h = HookResult.launchFailure ∧ stateOf h = "FAILED(launch)") := by
  cases h with
  | exit c =>
    cases c with
    | zero => exact Or.inl ⟨rfl, rfl⟩
    | succ n => exact Or.inr (Or.inl ⟨n + 1, by omega, rfl, rfl⟩)
  | launchFailure => exact Or.inr (Or.inr ⟨rfl, rfl⟩)

/-- Claim C9 (confirmed, modelled from the spec — no dispatcher exists under
src/): after a dispatch pass with the hook present, no row of the store is
in state NEW — in particular none of the rows that were NEW at the start —
and each row that was NEW has had its outcome recorded: SUCCESS exactly for
a zero exit status of the hook, FAILED(code) for a non-zero status, and the
launch-failure sentinel when the hook could not be started. -/
theorem C9_dispatch_complete :
    (∀ (hook : String → String → String → HookResult) (s : List Row) (x : Row),
      x ∈ dispatchPending true hook s → ¬(x.state = "NEW")) ∧
    (∀ (hook : String → String → String → HookResult) (s : List Row) (r : Row),
      r ∈ s → r.state = "NEW" →
      ({ r with state := stateOf (hook r.commit r.branch r.release) } : Row) ∈
          dispatchPending true hook s ∧
      ((hook r.commit r.branch r.release = HookResult.exit 0 ∧
          stateOf (hook r.commit r.branch r.release) = "SUCCESS") ∨
        (∃ c, ¬(c = 0) ∧ hook r.commit r.branch r.release = HookResult.exit c ∧
          stateOf (hook r.commit r.branch r.release) =
            "FAILED(" ++ toString c ++ ")") ∨
        (hook r.commit r.branch r.release = HookResult.launchFailure ∧
          stateOf (hook r.commit r.branch r.release) = "FAILED(launch)"))) := by
  constructor
  · intro hook s x hx
    simp only [dispatchPending, if_true] at hx
    obtain ⟨r, hr, hfr⟩ := List.mem_map.mp hx
    by_cases hnew : r.state = "NEW"
    · rw [if_pos hnew] at hfr
      rw [← hfr]
      exact stateOf_ne_NEW (hook r.commit r.branch r.release)
    · rw [if_neg hnew] at hfr
      rw [← hfr]
      exact hnew
  · intro hook s r hr hnew
    constructor
    · simp only [dispatchPending, if_true]
      have hfr :
          (fun x : Row => if x.state = "NEW" then
            { x with state := stateOf (hook x.commit x.branch x.release) }
          else x) r =
            { r with state := stateOf (hook r.commit r.branch r.release) } := by
        simp [hnew]
      exact hfr ▸ List.mem_map_of_mem _ hr
    · exact stateOf_cases (hook r.commit r.branch r.release)

/-- Claim C9, witness: a dispatched store holds no NEW row. -/
theorem C9_witness :
    ¬((⟨"1.0", "b", "A", "w", "n", "SUCCESS", none⟩ : Row).state = "NEW") :=
  C9_dispatch_complete.1 (fun _ _ _ => HookResult.exit 0)
    [⟨"1.0", "b", "A", "w", "n", "NEW", none⟩]
    (⟨"1.0", "b", "A", "w", "n", "SUCCESS", none⟩ : Row) (by decide)

end TrackRelease

